import Mathlib

/-!
Verification of the open-addressing hash-table subsystem of the benchmark
corpus (spec.md sections 3, 4, 8).

The table logic lives in four benchmark files and is embedded here verbatim:
  * `src/bench/benchmarks/07_map_ops/bench.c`        — int-keyed table, CAPACITY 2048
  * `src/bench/benchmarks/15_keyword_lookup/bench.c` — string-keyed table, CAPACITY 16
  * `src/bench/benchmarks/12_gc_stress/bench.c`      — string-keyed table, CAPACITY 8
  * `src/bench/benchmarks/17_nested_update/bench.c`  — nested string-keyed tables, CAPACITY 4

All variants share one algorithm (linear probing with `idx & (CAPACITY-1)`
masking), differing only in key type, hash function and capacity, so the flat
table is embedded once, generic over the key type `K` and the hash function,
and instantiated per variant.  C `unsigned` arithmetic is modelled as `Nat`
with explicit `% 2^32`; C `long` values are modelled as `Int` (no benchmark
relies on 64-bit wraparound); C strings are modelled as their byte lists,
`strcmp`-equality being list equality.

The C probe loops carry no fuel: on a table whose every slot is occupied by a
non-matching key they never exit.  The embedding therefore gives each probe a
fuel argument counting the slots it may still examine; `none` means the fuel
ran out with the loop condition still true.  At fuel = CAPACITY the probe has
visited every slot of its (periodic) probe sequence, so `none` at that fuel
means the C loop cycles forever.
-/

set_option maxHeartbeats 1000000

namespace HashBench

/-- A C string modelled as its byte sequence (`strcmp` equality is list
equality for the NUL-free literals used by the benchmarks). -/
abbrev Str : Type := List Nat

/-- `typedef struct { int key; long val; bool used; } Entry;`
(07_map_ops with `K = Int`; 15_keyword_lookup and 12_gc_stress with
`K = Str`). -/
structure Entry (K : Type) where
  key : K
  val : Int
  used : Bool
deriving DecidableEq, Repr

/-- A zero-initialized slot, as produced by `calloc` / `= {{0}}`. -/
def emptyEntry (K : Type) [Inhabited K] : Entry K := ⟨default, 0, false⟩

/-- A freshly allocated table: CAPACITY zero-initialized slots. -/
def emptyTable (K : Type) [Inhabited K] (cap : Nat) : List (Entry K) :=
  List.replicate cap (emptyEntry K)

/-- The slot read `t[i]`.  All verified accesses have `i < t.length`
(claim C9); the default is only there to make the function total. -/
def slot {K : Type} [Inhabited K] (t : List (Entry K)) (i : Nat) : Entry K :=
  t.getD i (emptyEntry K)

/-- The index mask `idx & (CAPACITY - 1)` used by every probe step. -/
def maskIdx (cap i : Nat) : Nat := i &&& (cap - 1)

/-- Hash of integer keys: `(unsigned)key * 2654435761u` (07_map_ops line 11).
The C conversion to `unsigned` and the unsigned multiplication together
compute `(key * 2654435761) mod 2^32`, nonnegative representative. -/
def hashInt (k : Int) : Nat := ((k * 2654435761) % (2 ^ 32 : Int)).toNat

/-- DJB2 string hash: `h = 5381; while (*s) h = h * 33 + (unsigned char)*s++;`
on `unsigned` 32-bit arithmetic (15_keyword_lookup lines 10-14). -/
def hashStr (s : Str) : Nat := s.foldl (fun h c => (h * 33 + c) % 2 ^ 32) 5381

/-- The probe-continue condition `t[idx].used && t[idx].key != key` shared by
the `put` loop and (as its used-branch) the `get` loop. -/
def ProbeCont {K : Type} [Inhabited K] [DecidableEq K]
    (t : List (Entry K)) (k : K) (i : Nat) : Prop :=
  (slot t i).used = true ∧ (slot t i).key ≠ k

instance {K : Type} [Inhabited K] [DecidableEq K]
    (t : List (Entry K)) (k : K) (i : Nat) : Decidable (ProbeCont t k i) :=
  inferInstanceAs (Decidable (_ ∧ _))

/-- `put`'s probe loop
`while (t[idx].used && t[idx].key != key) idx = (idx + 1) & (CAPACITY - 1);`
returning the index where the loop exits.  The fuel argument (second `Nat`)
bounds the number of slots examined; `none` means the loop condition held at
every examined slot. -/
def probePut {K : Type} [Inhabited K] [DecidableEq K]
    (cap : Nat) (t : List (Entry K)) (k : K) : Nat → Nat → Option Nat
  | _, 0 => none
  | i, f + 1 =>
      if ProbeCont t k i then probePut cap t k (maskIdx cap (i + 1)) f else some i

/-- `put` of 07_map_ops lines 10-17 (and, with `K = Str`, of
15_keyword_lookup lines 16-23 and 12_gc_stress lines 17-24): probe from
`hash(key) & (CAPACITY - 1)`, then `t[idx].key = key; t[idx].val = val;
t[idx].used = true;`.  At fuel CAPACITY a `none` probe means the C loop never
exits, so `none` here models that divergence (the source has no full-table
check). -/
def put {K : Type} [Inhabited K] [DecidableEq K]
    (cap : Nat) (hash : K → Nat) (t : List (Entry K)) (k : K) (v : Int) :
    Option (List (Entry K)) :=
  match probePut cap t k (maskIdx cap (hash k)) cap with
  | some i => some (t.set i ⟨k, v, true⟩)
  | none => none

/-- `get`'s probe loop (07_map_ops lines 19-26): while the slot is used,
return its value on key match, else step; on the first unused slot return the
absent sentinel `0`.  `some v` is the C return value; `none` means the fuel
ran out with every examined slot used and non-matching. -/
def getAux {K : Type} [Inhabited K] [DecidableEq K]
    (cap : Nat) (t : List (Entry K)) (k : K) : Nat → Nat → Option Int
  | _, 0 => none
  | i, f + 1 =>
      if (slot t i).used = true then
        if (slot t i).key = k then some (slot t i).val
        else getAux cap t k (maskIdx cap (i + 1)) f
      else some 0

/-- `get` of 07_map_ops lines 19-26 (and the string variants), with the probe
given fuel CAPACITY: `some v` is what the C function returns, `none` means
the C loop never terminates. -/
def get {K : Type} [Inhabited K] [DecidableEq K]
    (cap : Nat) (hash : K → Nat) (t : List (Entry K)) (k : K) : Option Int :=
  getAux cap t k (maskIdx cap (hash k)) cap

/-- A sequence of `put` calls, propagating the divergence marker. -/
def putList {K : Type} [Inhabited K] [DecidableEq K]
    (cap : Nat) (hash : K → Nat) :
    List (Entry K) → List (K × Int) → Option (List (Entry K))
  | t, [] => some t
  | t, p :: ps =>
      match put cap hash t p.1 p.2 with
      | some t' => putList cap hash t' ps
      | none => none

/-- A table built from the empty table by a sequence of `put` calls. -/
def buildTable {K : Type} [Inhabited K] [DecidableEq K]
    (cap : Nat) (hash : K → Nat) (l : List (K × Int)) :
    Option (List (Entry K)) :=
  putList cap hash (emptyTable K cap) l

/-- Number of occupied slots. -/
def countUsed {K : Type} (t : List (Entry K)) : Nat :=
  t.countP (fun e => e.used)

/-- Table states reachable from a freshly allocated table by terminating
`put` calls ("built by a sequence of put operations that never exhausts
capacity"). -/
inductive Reachable {K : Type} [Inhabited K] [DecidableEq K]
    (cap : Nat) (hash : K → Nat) : List (Entry K) → Prop where
  | base : Reachable cap hash (emptyTable K cap)
  | step : ∀ {t : List (Entry K)} {k : K} {v : Int} {t' : List (Entry K)},
      Reachable cap hash t → put cap hash t k v = some t' →
      Reachable cap hash t'

/-- The C `put` call terminates: some probe budget makes its loop exit. -/
def PutTerminates {K : Type} [Inhabited K] [DecidableEq K]
    (cap : Nat) (hash : K → Nat) (t : List (Entry K)) (k : K) : Prop :=
  ∃ f r, probePut cap t k (maskIdx cap (hash k)) f = some r

/-- The C `get` call terminates: some probe budget makes it return. -/
def GetTerminates {K : Type} [Inhabited K] [DecidableEq K]
    (cap : Nat) (hash : K → Nat) (t : List (Entry K)) (k : K) : Prop :=
  ∃ f v, getAux cap t k (maskIdx cap (hash k)) f = some v

/-- Pointwise update of an abstract map, the specification-level effect of
`put`. -/
def upd {K : Type} [DecidableEq K]
    (a : K → Option Int) (k : K) (v : Int) : K → Option Int :=
  fun x => if x = k then some v else a x

/-- Abstract map denoted by a sequence of (key, value) insertions. -/
def aOf {K : Type} [DecidableEq K] (l : List (K × Int)) : K → Option Int :=
  l.foldl (fun a p => upd a p.1 p.2) (fun _ => none)

/-- The coupling invariant between a concrete table and the abstract map it
denotes: spec.md section 3 invariants (at most one slot per key; the no-holes
probe invariant) together with soundness/completeness of the slot contents. -/
structure Models {K : Type} [Inhabited K] [DecidableEq K]
    (cap : Nat) (hash : K → Nat) (t : List (Entry K))
    (a : K → Option Int) : Prop where
  len : t.length = cap
  sound : ∀ i, i < cap → (slot t i).used = true →
    a (slot t i).key = some (slot t i).val
  complete : ∀ k v, a k = some v →
    ∃ i, i < cap ∧ (slot t i).used = true ∧ (slot t i).key = k ∧
      (slot t i).val = v
  uniq : ∀ i j, i < cap → j < cap → (slot t i).used = true →
    (slot t j).used = true → (slot t i).key = (slot t j).key → i = j
  noHoles : ∀ i, i < cap → (slot t i).used = true →
    ∃ d, d < cap ∧ i = (maskIdx cap (hash (slot t i).key) + d) % cap ∧
      ∀ j, j < d →
        (slot t ((maskIdx cap (hash (slot t i).key) + j) % cap)).used = true

/-- The list of slot indices examined by a probe of the given fuel starting
at index `i` — the footprint of the loops of `put`, `get` and `find`. -/
def probeSeq (cap : Nat) : Nat → Nat → List Nat
  | _, 0 => []
  | i, f + 1 => i :: probeSeq cap (maskIdx cap (i + 1)) f

/-- `typedef struct { const char *key; long val; bool used; bool is_ptr;
void *ptr; } Entry;` (17_nested_update line 8).  The `void *ptr` link to a
child table is modelled as an index into a store (list) of tables, matching
the spec's arena+index reading of the pointer chain. -/
structure NEntry where
  key : Str
  val : Int
  used : Bool
  is_ptr : Bool
  ptr : Nat
deriving DecidableEq, Repr

/-- Zero-initialized nested-table slot (`Entry level[CAPACITY] = {{0}}`). -/
def emptyNEntry : NEntry := ⟨[], 0, false, false, 0⟩

/-- Slot read `t[i]` for the nested variant. -/
def nslot (t : List NEntry) (i : Nat) : NEntry := t.getD i emptyNEntry

/-- A freshly declared nested table of the given capacity. -/
def emptyNTable (cap : Nat) : List NEntry := List.replicate cap emptyNEntry

/-- Probe-continue condition of the nested variant's loops:
`t[idx].used && strcmp(t[idx].key, key) != 0`. -/
def NCont (t : List NEntry) (k : Str) (i : Nat) : Prop :=
  (nslot t i).used = true ∧ (nslot t i).key ≠ k

instance (t : List NEntry) (k : Str) (i : Nat) : Decidable (NCont t k i) :=
  inferInstanceAs (Decidable (_ ∧ _))

/-- `find`'s probe loop (17_nested_update lines 16-23): while the slot is
used, return its address on key match, else step; on the first unused slot
return NULL.  `some (some i)` models returning `&t[i]`, `some none` models
returning NULL, `none` means the fuel ran out with the loop still running. -/
def findAux (cap : Nat) (t : List NEntry) (k : Str) :
    Nat → Nat → Option (Option Nat)
  | _, 0 => none
  | i, f + 1 =>
      if (nslot t i).used = true then
        if (nslot t i).key = k then some (some i)
        else findAux cap t k (maskIdx cap (i + 1)) f
      else some none

/-- `find` of 17_nested_update lines 16-23, probe fuel = capacity
(the source uses CAPACITY = 4). -/
def find (cap : Nat) (t : List NEntry) (k : Str) : Option (Option Nat) :=
  findAux cap t k (maskIdx cap (hashStr k)) cap

/-- The shared probe loop of `put_val` / `put_ptr`
(17_nested_update lines 26-28 and 36-38). -/
def probePutN (cap : Nat) (t : List NEntry) (k : Str) :
    Nat → Nat → Option Nat
  | _, 0 => none
  | i, f + 1 =>
      if NCont t k i then probePutN cap t k (maskIdx cap (i + 1)) f else some i

/-- `put_val` of 17_nested_update lines 25-33: writes
`key, val, used = true, is_ptr = false`, leaving the `ptr` field as it was. -/
def put_val (cap : Nat) (t : List NEntry) (k : Str) (v : Int) :
    Option (List NEntry) :=
  match probePutN cap t k (maskIdx cap (hashStr k)) cap with
  | some i => some (t.set i ⟨k, v, true, false, (nslot t i).ptr⟩)
  | none => none

/-- `put_ptr` of 17_nested_update lines 35-43: writes
`key, ptr, used = true, is_ptr = true`, leaving the `val` field as it was. -/
def put_ptr (cap : Nat) (t : List NEntry) (k : Str) (p : Nat) :
    Option (List NEntry) :=
  match probePutN cap t k (maskIdx cap (hashStr k)) cap with
  | some i => some (t.set i ⟨k, (nslot t i).val, true, true, p⟩)
  | none => none

/-- The store of stack-allocated tables of 17_nested_update's `main`:
index 0 = `level_a`, 1 = `level_b`, 2 = `level_c`. -/
abbrev Store17 : Type := List (List NEntry)

/-- Table lookup in the store (pointer dereference). -/
def tbl (s : Store17) (j : Nat) : List NEntry := s.getD j []

/-- Key byte strings of 17_nested_update: `"a"`, `"b"`, `"c"`. -/
def kA : Str := [97]

/-- `"b"` as bytes. -/
def kB : Str := [98]

/-- `"c"` as bytes. -/
def kC : Str := [99]

/-- One iteration of `main`'s update loop (17_nested_update lines 58-63):
`ea = find(level_a, "a"); eb = find(ea->ptr, "b"); ec = find(eb->ptr, "c");
ec->val++;`.  `none` marks the paths where `main` would dereference NULL or a
spun probe — never taken on the benchmark's store. -/
def step17 (s : Store17) : Option Store17 :=
  match find 4 (tbl s 0) kA with
  | some (some ia) =>
      let ea := nslot (tbl s 0) ia
      match find 4 (tbl s ea.ptr) kB with
      | some (some ib) =>
          let eb := nslot (tbl s ea.ptr) ib
          match find 4 (tbl s eb.ptr) kC with
          | some (some ic) =>
              let ec := nslot (tbl s eb.ptr) ic
              some (s.set eb.ptr ((tbl s eb.ptr).set ic
                { ec with val := ec.val + 1 }))
          | _ => none
      | _ => none
  | _ => none

/-- `n` iterations of the update loop. -/
def iter17 : Nat → Store17 → Option Store17
  | 0, s => some s
  | n + 1, s =>
      match step17 s with
      | some s' => iter17 n s'
      | none => none

/-- `main`'s final read (17_nested_update lines 66-69): navigate
`a`, `b`, `c` by `find` and read the terminal `val`. -/
def read17 (s : Store17) : Option Int :=
  match find 4 (tbl s 0) kA with
  | some (some ia) =>
      let ra := nslot (tbl s 0) ia
      match find 4 (tbl s ra.ptr) kB with
      | some (some ib) =>
          let rb := nslot (tbl s ra.ptr) ib
          match find 4 (tbl s rb.ptr) kC with
          | some (some ic) => some (nslot (tbl s rb.ptr) ic).val
          | _ => none
      | _ => none
  | _ => none

/-- The nested store `{:a {:b {:c v}}}` of 17_nested_update's `main` after
construction, with terminal value `v`: `"a"` hashes to slot 2 of `level_a`,
`"b"` to slot 3 of `level_b`, `"c"` to slot 0 of `level_c`. -/
def store17At (v : Int) : Store17 :=
  [ [emptyNEntry, emptyNEntry, ⟨kA, 0, true, true, 1⟩, emptyNEntry],
    [emptyNEntry, emptyNEntry, emptyNEntry, ⟨kB, 0, true, true, 2⟩],
    [⟨kC, v, true, false, 0⟩, emptyNEntry, emptyNEntry, emptyNEntry] ]

/-- The construction phase of `main` (17_nested_update lines 48-55):
`put_val(level_c, "c", 0); put_ptr(level_b, "b", level_c);
put_ptr(level_a, "a", level_b);`. -/
def build17 : Option Store17 :=
  match put_val 4 (emptyNTable 4) kC 0 with
  | some c =>
      match put_ptr 4 (emptyNTable 4) kB 2 with
      | some b =>
          match put_ptr 4 (emptyNTable 4) kA 1 with
          | some a => some [a, b, c]
          | none => none
      | none => none
  | none => none

/-- Error kind of the spec's NestedAccessor (spec.md section 7). -/
inductive PathErr where
  | PathNotFound
deriving DecidableEq, Repr

/-- Modelled from the spec: `resolvePath(root, path)` of spec.md section 4.2.
The source repository implements only the building block `find`
(17_nested_update lines 16-23) and a caller (`main`, lines 58-69) that
inlines the happy-path traversal without checking for NULL or non-reference
entries; the spec's reusable NestedAccessor operation with its `PathNotFound`
error is not present under src.  Following the spec's words: for each key of
the path except the last, `get(current, key)` must yield a reference to a
child table — Absent or a non-reference value fails with `PathNotFound`; the
last key must resolve to a slot, whose handle (table index, slot index) is
returned. -/
def resolvePath (s : Store17) (cur : Nat) :
    List Str → Except PathErr (Nat × Nat)
  | [] => .error .PathNotFound
  | k :: rest =>
      match find 4 (tbl s cur) k with
      | some (some i) =>
          match rest with
          | [] => .ok (cur, i)
          | _ :: _ =>
              if (nslot (tbl s cur) i).is_ptr = true then
                resolvePath s (nslot (tbl s cur) i).ptr rest
              else .error .PathNotFound
      | _ => .error .PathNotFound

/-- The reference-chain walk of a path prefix: succeeds with the table
reached when every segment resolves to a reference-typed entry. -/
def walkRefs (s : Store17) : Nat → List Str → Option Nat
  | cur, [] => some cur
  | cur, k :: rest =>
      match find 4 (tbl s cur) k with
      | some (some i) =>
          if (nslot (tbl s cur) i).is_ptr = true then
            walkRefs s (nslot (tbl s cur) i).ptr rest
          else none
      | _ => none

/-- Power-of-two capacities, the constructor precondition of spec.md
section 4.1 (all source capacities — 2048, 16, 8, 4 — satisfy it). -/
def Pow2 (cap : Nat) : Prop := ∃ m, cap = 2 ^ m

/-- A concrete capacity-4 integer-keyed table with every slot occupied:
keys 0, 1, 2, 3 hash to buckets 0, 1, 2, 3 under the multiplicative hash
masked by 3, so it is reachable by four successful `put` calls. -/
def tF : List (Entry Int) :=
  [⟨0, 10, true⟩, ⟨1, 11, true⟩, ⟨2, 12, true⟩, ⟨3, 13, true⟩]

/-! ### Basic facts about the mask, slots and modular probe arithmetic -/

theorem pow2_pos {cap : Nat} (hc : Pow2 cap) : 0 < cap := by
  obtain ⟨m, rfl⟩ := hc
  exact Nat.pos_pow_of_pos m (by omega)

theorem maskIdx_eq_mod {cap : Nat} (hc : Pow2 cap) (i : Nat) :
    maskIdx cap i = i % cap := by
  obtain ⟨m, rfl⟩ := hc
  exact Nat.and_pow_two_sub_one_eq_mod i m

theorem maskIdx_lt {cap : Nat} (hc : Pow2 cap) (i : Nat) :
    maskIdx cap i < cap := by
  rw [maskIdx_eq_mod hc]
  exact Nat.mod_lt _ (pow2_pos hc)

theorem slot_eq_getElem {K : Type} [Inhabited K] {t : List (Entry K)} {i : Nat}
    (h : i < t.length) : slot t i = t[i] := by
  simp [slot, List.getD_eq_getElem?_getD, List.getElem?_eq_getElem h]

theorem slot_set_eq {K : Type} [Inhabited K] {t : List (Entry K)} {i : Nat}
    (e : Entry K) (h : i < t.length) : slot (t.set i e) i = e := by
  simp [slot, List.getD_eq_getElem?_getD, List.getElem?_set_eq_of_lt e h]

theorem slot_set_ne {K : Type} [Inhabited K] {t : List (Entry K)} {i j : Nat}
    (e : Entry K) (h : i ≠ j) : slot (t.set i e) j = slot t j := by
  simp [slot, List.getD_eq_getElem?_getD, List.getElem?_set_ne h]

theorem slot_emptyTable (K : Type) [Inhabited K] (cap i : Nat) :
    slot (emptyTable K cap) i = emptyEntry K := by
  by_cases h : i < cap <;>
    simp [slot, emptyTable, List.getD_eq_getElem?_getD, List.getElem?_replicate, h]

/-- Stepping the probe start by one and adding `d` offsets is adding `d + 1`
offsets: the probe visits `(start + j) % cap` at its `j`-th step. -/
theorem step_shift {cap : Nat} (i d : Nat) :
    ((i + 1) % cap + d) % cap = (i + (d + 1)) % cap := by
  rw [Nat.mod_add_mod, Nat.add_assoc, Nat.add_comm 1 d]

/-- Offsets below `cap` are injective on the probe cycle. -/
theorem resid_inj {cap s j d : Nat} (hj : j < cap) (hd : d < cap)
    (he : (s + j) % cap = (s + d) % cap) : j = d := by
  have h1 : j % cap = d % cap :=
    Nat.ModEq.add_left_cancel' s he
  rwa [Nat.mod_eq_of_lt hj, Nat.mod_eq_of_lt hd] at h1

/-- Within `cap` probe steps from any start below `cap`, every slot index of
the table is visited. -/
theorem probe_covers {cap s i : Nat} (hs : s < cap) (hi : i < cap) :
    ∃ d, d < cap ∧ i = (s + d) % cap := by
  have hpos : 0 < cap := Nat.lt_of_le_of_lt (Nat.zero_le s) hs
  refine ⟨(i + (cap - s)) % cap, Nat.mod_lt _ hpos, ?_⟩
  have h1 : (s + (i + (cap - s)) % cap) % cap = (s + (i + (cap - s))) % cap :=
    Nat.add_mod_mod _ _ _
  have h2 : s + (i + (cap - s)) = i + cap := by omega
  rw [h1, h2, Nat.add_mod_right, Nat.mod_eq_of_lt hi]

/-! ### Probe-loop characterizations -/

/-- If the continue condition holds at every index of the table, the `put`
probe loop never exits, whatever its fuel: the C `while` runs forever. -/
theorem probePut_spin {K : Type} [Inhabited K] [DecidableEq K]
    {cap : Nat} {t : List (Entry K)} {k : K} (hc : Pow2 cap)
    (hall : ∀ idx, idx < cap → ProbeCont t k idx) :
    ∀ f i, i < cap → probePut cap t k i f = none := by
  intro f
  induction f with
  | zero => intro i _; rfl
  | succ f ih =>
      intro i hi
      have hstep : maskIdx cap (i + 1) < cap := maskIdx_lt hc _
      simp only [probePut, if_pos (hall i hi)]
      exact ih _ hstep

/-- If the continue condition holds at every index of the table, the `get`
probe loop never returns, whatever its fuel. -/
theorem getAux_spin {K : Type} [Inhabited K] [DecidableEq K]
    {cap : Nat} {t : List (Entry K)} {k : K} (hc : Pow2 cap)
    (hall : ∀ idx, idx < cap → ProbeCont t k idx) :
    ∀ f i, i < cap → getAux cap t k i f = none := by
  intro f
  induction f with
  | zero => intro i _; rfl
  | succ f ih =>
      intro i hi
      have hstep : maskIdx cap (i + 1) < cap := maskIdx_lt hc _
      have hcont := hall i hi
      simp only [getAux, if_pos hcont.1, if_neg hcont.2]
      exact ih _ hstep

/-- Forward characterization of a successful `put` probe: the returned index
is the first offset along the probe sequence whose slot fails the continue
condition. -/
theorem probePut_writes {K : Type} [Inhabited K] [DecidableEq K]
    {cap : Nat} {t : List (Entry K)} {k : K} (hc : Pow2 cap) :
    ∀ f i r, i < cap → probePut cap t k i f = some r →
      ∃ d, d < f ∧ r = (i + d) % cap ∧ ¬ProbeCont t k r ∧
        ∀ j, j < d → ProbeCont t k ((i + j) % cap) := by
  intro f
  induction f with
  | zero => intro i r _ h; exact absurd h (by simp [probePut])
  | succ f ih =>
      intro i r hi h
      by_cases hcont : ProbeCont t k i
      · rw [probePut, if_pos hcont] at h
        obtain ⟨d, hd, hr, hstop, hpath⟩ := ih _ r (maskIdx_lt hc _) h
        rw [maskIdx_eq_mod hc] at hr hpath
        refine ⟨d + 1, by omega, by rw [hr, step_shift], hstop, ?_⟩
        intro j hj
        match j with
        | 0 => simpa [Nat.mod_eq_of_lt hi] using hcont
        | j + 1 =>
            have := hpath j (by omega)
            rwa [step_shift] at this
      · rw [probePut, if_neg hcont] at h
        obtain rfl : i = r := by simpa using h
        exact ⟨0, by omega, by simp [Nat.mod_eq_of_lt hi], hcont, by omega⟩

/-- If some offset within the fuel fails the continue condition, the `put`
probe exits. -/
theorem probePut_stops {K : Type} [Inhabited K] [DecidableEq K]
    {cap : Nat} {t : List (Entry K)} {k : K} (hc : Pow2 cap) :
    ∀ f i, i < cap → (∃ d, d < f ∧ ¬ProbeCont t k ((i + d) % cap)) →
      ∃ r, probePut cap t k i f = some r := by
  intro f
  induction f with
  | zero => intro i _ ⟨d, hd, _⟩; omega
  | succ f ih =>
      intro i hi ⟨d, hd, hstop⟩
      by_cases hcont : ProbeCont t k i
      · have hd0 : d ≠ 0 := by
          rintro rfl
          rw [Nat.add_zero, Nat.mod_eq_of_lt hi] at hstop
          exact hstop hcont
        obtain ⟨d, rfl⟩ : ∃ d', d = d' + 1 := ⟨d - 1, by omega⟩
        obtain ⟨r, hr⟩ := ih (maskIdx cap (i + 1)) (maskIdx_lt hc _)
          ⟨d, by omega, by rwa [maskIdx_eq_mod hc, step_shift]⟩
        exact ⟨r, by rw [probePut, if_pos hcont]; exact hr⟩
      · exact ⟨i, by rw [probePut, if_neg hcont]⟩

/-- If the probe path up to offset `d` keeps the continue condition alive and
the slot at offset `d` is occupied by the searched key, `get`'s loop returns
that slot's value. -/
theorem getAux_found {K : Type} [Inhabited K] [DecidableEq K]
    {cap : Nat} {t : List (Entry K)} {k : K} (hc : Pow2 cap) :
    ∀ d f i, i < cap → d < f →
      (∀ j, j < d → ProbeCont t k ((i + j) % cap)) →
      (slot t ((i + d) % cap)).used = true →
      (slot t ((i + d) % cap)).key = k →
      getAux cap t k i f = some (slot t ((i + d) % cap)).val := by
  intro d
  induction d with
  | zero =>
      intro f i hi hf _ hu hk
      obtain ⟨f, rfl⟩ : ∃ f', f = f' + 1 := ⟨f - 1, by omega⟩
      simp only [Nat.add_zero, Nat.mod_eq_of_lt hi] at hu hk ⊢
      rw [getAux, if_pos hu, if_pos hk]
  | succ d ih =>
      intro f i hi hf hpath hu hk
      obtain ⟨f, rfl⟩ : ∃ f', f = f' + 1 := ⟨f - 1, by omega⟩
      have hcont : ProbeCont t k i := by
        have := hpath 0 (by omega)
        rwa [Nat.add_zero, Nat.mod_eq_of_lt hi] at this
      have hstep : maskIdx cap (i + 1) < cap := maskIdx_lt hc _
      have h2 : (maskIdx cap (i + 1) + d) % cap = (i + (d + 1)) % cap := by
        rw [maskIdx_eq_mod hc, step_shift]
      have h1 : ∀ j, j < d → ProbeCont t k ((maskIdx cap (i + 1) + j) % cap) := by
        intro j hj
        rw [maskIdx_eq_mod hc, step_shift]
        exact hpath (j + 1) (by omega)
      have hu' : (slot t ((maskIdx cap (i + 1) + d) % cap)).used = true := by
        rw [h2]; exact hu
      have hk' : (slot t ((maskIdx cap (i + 1) + d) % cap)).key = k := by
        rw [h2]; exact hk
      rw [getAux, if_pos hcont.1, if_neg hcont.2,
        ih f (maskIdx cap (i + 1)) hstep (by omega) h1 hu' hk', h2]

/-- If the probe path up to offset `d` keeps the continue condition alive and
the slot at offset `d` is Empty, `get`'s loop returns the absent sentinel
`0`. -/
theorem getAux_empty {K : Type} [Inhabited K] [DecidableEq K]
    {cap : Nat} {t : List (Entry K)} {k : K} (hc : Pow2 cap) :
    ∀ d f i, i < cap → d < f →
      (∀ j, j < d → ProbeCont t k ((i + j) % cap)) →
      (slot t ((i + d) % cap)).used = false →
      getAux cap t k i f = some 0 := by
  intro d
  induction d with
  | zero =>
      intro f i hi hf _ hu
      obtain ⟨f, rfl⟩ : ∃ f', f = f' + 1 := ⟨f - 1, by omega⟩
      simp only [Nat.add_zero, Nat.mod_eq_of_lt hi] at hu
      rw [getAux, if_neg (by simp [hu])]
  | succ d ih =>
      intro f i hi hf hpath hu
      obtain ⟨f, rfl⟩ : ∃ f', f = f' + 1 := ⟨f - 1, by omega⟩
      have hcont : ProbeCont t k i := by
        have := hpath 0 (by omega)
        rwa [Nat.add_zero, Nat.mod_eq_of_lt hi] at this
      have hstep : maskIdx cap (i + 1) < cap := maskIdx_lt hc _
      have h2 : (maskIdx cap (i + 1) + d) % cap = (i + (d + 1)) % cap := by
        rw [maskIdx_eq_mod hc, step_shift]
      have h1 : ∀ j, j < d → ProbeCont t k ((maskIdx cap (i + 1) + j) % cap) := by
        intro j hj
        rw [maskIdx_eq_mod hc, step_shift]
        exact hpath (j + 1) (by omega)
      have hu' : (slot t ((maskIdx cap (i + 1) + d) % cap)).used = false := by
        rw [h2]; exact hu
      rw [getAux, if_pos hcont.1, if_neg hcont.2,
        ih f (maskIdx cap (i + 1)) hstep (by omega) h1 hu']

/-- If some offset within the fuel fails the continue condition, the `get`
probe exits with some return value. -/
theorem getAux_stops {K : Type} [Inhabited K] [DecidableEq K]
    {cap : Nat} {t : List (Entry K)} {k : K} (hc : Pow2 cap) :
    ∀ f i, i < cap → (∃ d, d < f ∧ ¬ProbeCont t k ((i + d) % cap)) →
      ∃ v, getAux cap t k i f = some v := by
  intro f
  induction f with
  | zero => intro i _ ⟨d, hd, _⟩; omega
  | succ f ih =>
      intro i hi ⟨d, hd, hstop⟩
      by_cases hcont : ProbeCont t k i
      · have hd0 : d ≠ 0 := by
          rintro rfl
          rw [Nat.add_zero, Nat.mod_eq_of_lt hi] at hstop
          exact hstop hcont
        obtain ⟨d, rfl⟩ : ∃ d', d = d' + 1 := ⟨d - 1, by omega⟩
        obtain ⟨v, hv⟩ := ih (maskIdx cap (i + 1)) (maskIdx_lt hc _)
          ⟨d, by omega, by rwa [maskIdx_eq_mod hc, step_shift]⟩
        exact ⟨v, by rw [getAux, if_pos hcont.1, if_neg hcont.2]; exact hv⟩
      · by_cases hu : (slot t i).used = true
        · have hk : (slot t i).key = k := by
            by_contra hk
            exact hcont ⟨hu, hk⟩
          exact ⟨(slot t i).val, by rw [getAux, if_pos hu, if_pos hk]⟩
        · exact ⟨0, by rw [getAux, if_neg hu]⟩

/-- If some offset within the fuel fails the nested variant's continue
condition, the `find` probe exits with some return value (the entry address
or NULL). -/
theorem findAux_stops {cap : Nat} {t : List NEntry} {k : Str} (hc : Pow2 cap) :
    ∀ f i, i < cap → (∃ d, d < f ∧ ¬NCont t k ((i + d) % cap)) →
      ∃ w, findAux cap t k i f = some w := by
  intro f
  induction f with
  | zero => intro i _ ⟨d, hd, _⟩; omega
  | succ f ih =>
      intro i hi ⟨d, hd, hstop⟩
      by_cases hcont : NCont t k i
      · have hd0 : d ≠ 0 := by
          rintro rfl
          rw [Nat.add_zero, Nat.mod_eq_of_lt hi] at hstop
          exact hstop hcont
        obtain ⟨d, rfl⟩ : ∃ d', d = d' + 1 := ⟨d - 1, by omega⟩
        obtain ⟨w, hw⟩ := ih (maskIdx cap (i + 1)) (maskIdx_lt hc _)
          ⟨d, by omega, by rwa [maskIdx_eq_mod hc, step_shift]⟩
        exact ⟨w, by rw [findAux, if_pos hcont.1, if_neg hcont.2]; exact hw⟩
      · by_cases hu : (nslot t i).used = true
        · have hk : (nslot t i).key = k := by
            by_contra hk
            exact hcont ⟨hu, hk⟩
          exact ⟨some i, by rw [findAux, if_pos hu, if_pos hk]⟩
        · exact ⟨none, by rw [findAux, if_neg hu]⟩

/-! ### The coupling invariant and its preservation by `put` -/

theorem models_empty {K : Type} [Inhabited K] [DecidableEq K]
    (cap : Nat) (hash : K → Nat) :
    Models cap hash (emptyTable K cap) (fun _ => none) := by
  refine ⟨by simp [emptyTable], ?_, ?_, ?_, ?_⟩
  · intro i _ hu
    rw [slot_emptyTable] at hu
    simp [emptyEntry] at hu
  · intro k v h
    simp at h
  · intro i j _ _ hu _ _
    rw [slot_emptyTable] at hu
    simp [emptyEntry] at hu
  · intro i _ hu
    rw [slot_emptyTable] at hu
    simp [emptyEntry] at hu

/-- `put` refines the abstract map update: a successful `put k v` takes a
table denoting `a` to a table denoting `a[k := v]`, preserving all the
section-3 invariants. -/
theorem put_models {K : Type} [Inhabited K] [DecidableEq K]
    {cap : Nat} {hash : K → Nat} {t t' : List (Entry K)} {a : K → Option Int}
    {k : K} {v : Int} (hc : Pow2 cap) (hM : Models cap hash t a)
    (hp : put cap hash t k v = some t') :
    Models cap hash t' (upd a k v) := by
  have hs : maskIdx cap (hash k) < cap := maskIdx_lt hc _
  rcases hprobe : probePut cap t k (maskIdx cap (hash k)) cap with _ | r
  · rw [put, hprobe] at hp
    simp at hp
  · rw [put, hprobe] at hp
    injection hp with hp
    subst hp
    obtain ⟨d₀, hd₀, hr, hstop, hpath⟩ := probePut_writes hc cap _ r hs hprobe
    have hrcap : r < cap := by rw [hr]; exact Nat.mod_lt _ (pow2_pos hc)
    have hrlen : r < t.length := by rw [hM.len]; exact hrcap
    have hslot_r : slot (t.set r ⟨k, v, true⟩) r = ⟨k, v, true⟩ :=
      slot_set_eq _ hrlen
    have hkey_r : ∀ j, j < cap → (slot t j).used = true →
        (slot t j).key = k → j = r := by
      intro j hj hu hk2
      obtain ⟨dj, hdj, hjeq, hjpath⟩ := hM.noHoles j hj hu
      rw [hk2] at hjeq hjpath
      rcases Nat.lt_trichotomy dj d₀ with h | h | h
      · have := hpath dj h
        rw [← hjeq] at this
        exact absurd hk2 this.2
      · rw [hjeq, h, ← hr]
      · have hused_r : (slot t ((maskIdx cap (hash k) + d₀) % cap)).used =
            true := hjpath d₀ h
        rw [← hr] at hused_r
        have hkr : (slot t r).key = k := by
          by_contra hne
          exact hstop ⟨hused_r, hne⟩
        exact hM.uniq j r hj hrcap hu hused_r (by rw [hk2, hkr])
    refine ⟨?_, ?_, ?_, ?_, ?_⟩
    · rw [List.length_set]
      exact hM.len
    · intro i hi hu
      by_cases hir : i = r
      · subst hir
        rw [hslot_r]
        simp [upd]
      · rw [slot_set_ne _ (Ne.symm hir)] at hu ⊢
        have hsound := hM.sound i hi hu
        by_cases hkk : (slot t i).key = k
        · exact absurd (hkey_r i hi hu hkk) hir
        · simp only [upd, if_neg hkk]
          exact hsound
    · intro k' v' h'
      by_cases hk' : k' = k
      · subst hk'
        simp [upd] at h'
        subst h'
        exact ⟨r, hrcap, by rw [hslot_r], by rw [hslot_r], by rw [hslot_r]⟩
      · simp only [upd, if_neg hk'] at h'
        obtain ⟨i, hi, hu, hkey, hval⟩ := hM.complete k' v' h'
        have hir : i ≠ r := by
          rintro rfl
          exact hstop ⟨hu, by rw [hkey]; exact hk'⟩
        exact ⟨i, hi, by rw [slot_set_ne _ (Ne.symm hir)]; exact hu,
          by rw [slot_set_ne _ (Ne.symm hir)]; exact hkey,
          by rw [slot_set_ne _ (Ne.symm hir)]; exact hval⟩
    · intro i j hi hj hui huj hkeq
      by_cases hir : i = r <;> by_cases hjr : j = r
      · rw [hir, hjr]
      · subst hir
        rw [hslot_r] at hkeq
        rw [slot_set_ne _ (Ne.symm hjr)] at huj hkeq
        exact (hkey_r j hj huj hkeq.symm).symm
      · subst hjr
        rw [hslot_r] at hkeq
        rw [slot_set_ne _ (Ne.symm hir)] at hui hkeq
        exact hkey_r i hi hui hkeq
      · rw [slot_set_ne _ (Ne.symm hir)] at hui hkeq
        rw [slot_set_ne _ (Ne.symm hjr)] at huj hkeq
        exact hM.uniq i j hi hj hui huj hkeq
    · intro i hi hu
      by_cases hir : i = r
      · subst hir
        have hkeyi : (slot (t.set i ⟨k, v, true⟩) i).key = k := by
          rw [hslot_r]
        rw [hkeyi]
        refine ⟨d₀, hd₀, hr, ?_⟩
        intro j hj
        by_cases hx : (maskIdx cap (hash k) + j) % cap = i
        · rw [hx, hslot_r]
        · rw [slot_set_ne _ (Ne.symm hx)]
          exact (hpath j hj).1
      · have hslot_i : slot (t.set r ⟨k, v, true⟩) i = slot t i :=
          slot_set_ne _ (Ne.symm hir)
        rw [hslot_i] at hu ⊢
        obtain ⟨d, hd, hieq, hipath⟩ := hM.noHoles i hi hu
        refine ⟨d, hd, hieq, ?_⟩
        intro j hj
        by_cases hx : (maskIdx cap (hash (slot t i).key) + j) % cap = r
        · rw [hx, hslot_r]
        · rw [slot_set_ne _ (Ne.symm hx)]
          exact hipath j hj

/-- A slot failing the continue condition yields a probe offset failing it. -/
theorem stop_offset {K : Type} [Inhabited K] [DecidableEq K]
    {cap : Nat} {t : List (Entry K)} {k : K} {s : Nat} (hs : s < cap)
    (h : ∃ i, i < cap ∧ ¬ProbeCont t k i) :
    ∃ d, d < cap ∧ ¬ProbeCont t k ((s + d) % cap) := by
  obtain ⟨i, hi, hstop⟩ := h
  obtain ⟨d, hd, hieq⟩ := probe_covers hs hi
  exact ⟨d, hd, by rwa [← hieq]⟩

/-- `put` terminates whenever the table has an Empty slot or already
contains the key. -/
theorem put_succeeds {K : Type} [Inhabited K] [DecidableEq K]
    {cap : Nat} {hash : K → Nat} {t : List (Entry K)} {a : K → Option Int}
    {k : K} (v : Int) (hc : Pow2 cap) (hM : Models cap hash t a)
    (h : (∃ i, i < cap ∧ (slot t i).used = false) ∨ (∃ w, a k = some w)) :
    ∃ t', put cap hash t k v = some t' := by
  have hs : maskIdx cap (hash k) < cap := maskIdx_lt hc _
  have hstop : ∃ i, i < cap ∧ ¬ProbeCont t k i := by
    rcases h with ⟨i, hi, hu⟩ | ⟨w, hw⟩
    · exact ⟨i, hi, fun hcon => by simp [ProbeCont, hu] at hcon⟩
    · obtain ⟨i, hi, _, hkey, _⟩ := hM.complete k w hw
      exact ⟨i, hi, fun hcon => hcon.2 hkey⟩
  obtain ⟨d, hd, hstop'⟩ := stop_offset hs hstop
  obtain ⟨r, hr⟩ := probePut_stops hc cap _ hs ⟨d, hd, hstop'⟩
  exact ⟨t.set r ⟨k, v, true⟩, by rw [put, hr]⟩

/-- Key present in the abstract map: `get` returns its value. -/
theorem get_found {K : Type} [Inhabited K] [DecidableEq K]
    {cap : Nat} {hash : K → Nat} {t : List (Entry K)} {a : K → Option Int}
    {k : K} {v : Int} (hc : Pow2 cap) (hM : Models cap hash t a)
    (h : a k = some v) : get cap hash t k = some v := by
  obtain ⟨i, hi, hu, hkey, hval⟩ := hM.complete k v h
  obtain ⟨d, hd, hieq, hpath⟩ := hM.noHoles i hi hu
  rw [hkey] at hieq hpath
  have hs : maskIdx cap (hash k) < cap := maskIdx_lt hc _
  have hpath' : ∀ j, j < d →
      ProbeCont t k ((maskIdx cap (hash k) + j) % cap) := by
    intro j hj
    refine ⟨hpath j hj, ?_⟩
    intro hkk
    have heq := hM.uniq ((maskIdx cap (hash k) + j) % cap) i
      (Nat.mod_lt _ (pow2_pos hc)) hi (hpath j hj) hu (by rw [hkk, hkey])
    rw [hieq] at heq
    have := resid_inj (show j < cap by omega) hd heq
    omega
  have hgoal := getAux_found hc d cap (maskIdx cap (hash k)) hs hd hpath'
    (by rw [← hieq]; exact hu) (by rw [← hieq]; exact hkey)
  rw [get, hgoal, ← hieq, hval]

/-- Key absent and an Empty slot exists: `get` returns the sentinel 0 by
stopping at the first Empty slot on its probe path. -/
theorem get_absent {K : Type} [Inhabited K] [DecidableEq K]
    {cap : Nat} {hash : K → Nat} {t : List (Entry K)} {a : K → Option Int}
    {k : K} (hc : Pow2 cap) (hM : Models cap hash t a) (ha : a k = none)
    (hempty : ∃ i, i < cap ∧ (slot t i).used = false) :
    get cap hash t k = some 0 := by
  classical
  have hs : maskIdx cap (hash k) < cap := maskIdx_lt hc _
  have hex : ∃ d, ¬ProbeCont t k ((maskIdx cap (hash k) + d) % cap) := by
    obtain ⟨i, hi, hu⟩ := hempty
    obtain ⟨d, _, hieq⟩ := probe_covers hs hi
    refine ⟨d, ?_⟩
    rw [← hieq]
    exact fun hcon => absurd hcon.1 (by simp [hu])
  have hstop : ¬ProbeCont t k
      ((maskIdx cap (hash k) + Nat.find hex) % cap) := Nat.find_spec hex
  have hmin : ∀ j, j < Nat.find hex →
      ProbeCont t k ((maskIdx cap (hash k) + j) % cap) := by
    intro j hj
    exact not_not.mp (Nat.find_min hex hj)
  have hdcap : Nat.find hex < cap := by
    obtain ⟨i, hi, hu⟩ := hempty
    obtain ⟨d, hd, hieq⟩ := probe_covers hs hi
    have : Nat.find hex ≤ d := by
      refine Nat.find_min' hex ?_
      rw [← hieq]
      exact fun hcon => absurd hcon.1 (by simp [hu])
    omega
  have hu0 : (slot t ((maskIdx cap (hash k) + Nat.find hex) % cap)).used =
      false := by
    by_contra hne
    have hu' : (slot t ((maskIdx cap (hash k) + Nat.find hex) % cap)).used =
        true := by
      revert hne
      cases (slot t ((maskIdx cap (hash k) + Nat.find hex) % cap)).used <;>
        simp
    have hk' : (slot t ((maskIdx cap (hash k) + Nat.find hex) % cap)).key =
        k := by
      by_contra hkne
      exact hstop ⟨hu', hkne⟩
    have hsound := hM.sound _ (Nat.mod_lt _ (pow2_pos hc)) hu'
    rw [hk', ha] at hsound
    simp at hsound
  rw [get]
  exact getAux_empty hc (Nat.find hex) cap _ hs hdcap hmin hu0

/-- Key absent and the table completely full: `get` never returns — the C
loop cycles forever. -/
theorem get_full_none {K : Type} [Inhabited K] [DecidableEq K]
    {cap : Nat} {hash : K → Nat} {t : List (Entry K)} {a : K → Option Int}
    {k : K} (hc : Pow2 cap) (hM : Models cap hash t a) (ha : a k = none)
    (hfull : ∀ i, i < cap → (slot t i).used = true) :
    get cap hash t k = none := by
  rw [get]
  refine getAux_spin hc ?_ cap _ (maskIdx_lt hc _)
  intro idx hidx
  refine ⟨hfull idx hidx, ?_⟩
  intro hk
  have hsound := hM.sound idx hidx (hfull idx hidx)
  rw [hk, ha] at hsound
  simp at hsound


/-! ### Occupancy counting -/

theorem countUsed_emptyTable (K : Type) [Inhabited K] (cap : Nat) :
    countUsed (emptyTable K cap) = 0 := by
  induction cap with
  | zero => rfl
  | succ n ih =>
      have hstep : countUsed (emptyTable K (n + 1)) =
          countUsed (emptyTable K n) := by
        simp [countUsed, emptyTable, List.replicate_succ, List.countP_cons,
          emptyEntry]
      rw [hstep, ih]

theorem countUsed_full {K : Type} [Inhabited K] {cap : Nat}
    {t : List (Entry K)} (hlen : t.length = cap) :
    countUsed t = cap ↔ ∀ i, i < cap → (slot t i).used = true := by
  subst hlen
  rw [countUsed, List.countP_eq_length]
  constructor
  · intro h i hi
    rw [slot_eq_getElem hi]
    exact h _ (List.getElem_mem hi)
  · intro h e he
    obtain ⟨n, hn, rfl⟩ := List.mem_iff_getElem.mp he
    have := h n hn
    rw [slot_eq_getElem hn] at this
    simpa using this

theorem exists_empty_slot {K : Type} [Inhabited K] {cap : Nat}
    {t : List (Entry K)} (hlen : t.length = cap) (h : countUsed t ≠ cap) :
    ∃ i, i < cap ∧ (slot t i).used = false := by
  by_contra hno
  push_neg at hno
  apply h
  rw [countUsed_full hlen]
  intro i hi
  have hne := hno i hi
  cases hval : (slot t i).used
  · exact absurd hval hne
  · rfl

/-- A `put` of a fresh key fills exactly one previously-Empty slot. -/
theorem put_count {K : Type} [Inhabited K] [DecidableEq K]
    {cap : Nat} {hash : K → Nat} {t t' : List (Entry K)} {a : K → Option Int}
    {k : K} {v : Int} (hc : Pow2 cap) (hM : Models cap hash t a)
    (hnew : a k = none) (hp : put cap hash t k v = some t') :
    countUsed t' = countUsed t + 1 := by
  have hs : maskIdx cap (hash k) < cap := maskIdx_lt hc _
  rcases hprobe : probePut cap t k (maskIdx cap (hash k)) cap with _ | r
  · rw [put, hprobe] at hp
    simp at hp
  · rw [put, hprobe] at hp
    injection hp with hp
    subst hp
    obtain ⟨d, hd, hr, hstop, hpath⟩ := probePut_writes hc cap _ r hs hprobe
    have hrcap : r < cap := by rw [hr]; exact Nat.mod_lt _ (pow2_pos hc)
    have hrlen : r < t.length := by rw [hM.len]; exact hrcap
    have hu_r : (slot t r).used = false := by
      by_contra hne
      have hu' : (slot t r).used = true := by
        revert hne
        cases (slot t r).used <;> simp
      have hk' : (slot t r).key = k := by
        by_contra hkne
        exact hstop ⟨hu', hkne⟩
      have hsound := hM.sound r hrcap hu'
      rw [hk', hnew] at hsound
      simp at hsound
    have h1 : t[r].used = false := by
      rw [← slot_eq_getElem hrlen]
      exact hu_r
    simp only [countUsed, List.countP_set _ _ _ _ hrlen, h1]
    simp

/-- A `put` that overwrites a present key changes no slot's occupancy. -/
theorem put_count_overwrite {K : Type} [Inhabited K] [DecidableEq K]
    {cap : Nat} {hash : K → Nat} {t t' : List (Entry K)} {a : K → Option Int}
    {k : K} {v w : Int} (hc : Pow2 cap) (hM : Models cap hash t a)
    (hold : a k = some w) (hp : put cap hash t k v = some t') :
    countUsed t' = countUsed t := by
  have hs : maskIdx cap (hash k) < cap := maskIdx_lt hc _
  rcases hprobe : probePut cap t k (maskIdx cap (hash k)) cap with _ | r
  · rw [put, hprobe] at hp
    simp at hp
  · rw [put, hprobe] at hp
    injection hp with hp
    subst hp
    obtain ⟨d, hd, hr, hstop, hpath⟩ := probePut_writes hc cap _ r hs hprobe
    have hrcap : r < cap := by rw [hr]; exact Nat.mod_lt _ (pow2_pos hc)
    have hrlen : r < t.length := by rw [hM.len]; exact hrcap
    have hu_r : (slot t r).used = true := by
      by_contra hne
      have hu' : (slot t r).used = false := by
        revert hne
        cases (slot t r).used <;> simp
      obtain ⟨i, hi, hui, hkey, _⟩ := hM.complete k w hold
      obtain ⟨di, hdi, hieq, hipath⟩ := hM.noHoles i hi hui
      rw [hkey] at hieq hipath
      rcases Nat.lt_trichotomy di d with hlt | heq | hgt
      · have := hpath di hlt
        rw [← hieq] at this
        exact absurd hkey this.2
      · rw [heq, ← hr] at hieq
        rw [hieq] at hui
        rw [hui] at hu'
        simp at hu'
      · have := hipath d hgt
        rw [← hr] at this
        rw [this] at hu'
        simp at hu'
    have h1 : t[r].used = true := by
      rw [← slot_eq_getElem hrlen]
      exact hu_r
    simp only [countUsed, List.countP_set _ _ _ _ hrlen, h1]
    have hpos : 0 < List.countP (fun e => e.used) t :=
      List.countP_pos_iff.mpr ⟨t[r], List.getElem_mem hrlen, h1⟩
    simp
    omega


/-! ### Sequences of puts -/

theorem putList_preserve {K : Type} [Inhabited K] [DecidableEq K]
    {cap : Nat} {hash : K → Nat} (hc : Pow2 cap) :
    ∀ (l : List (K × Int)) (t t' : List (Entry K)) (a : K → Option Int),
      Models cap hash t a → putList cap hash t l = some t' →
      ∃ a', Models cap hash t' a' ∧
        ∀ x, (∀ p ∈ l, p.1 ≠ x) → a' x = a x := by
  intro l
  induction l with
  | nil =>
      intro t t' a hM hput
      obtain rfl : t = t' := by simpa [putList] using hput
      exact ⟨a, hM, fun x _ => rfl⟩
  | cons p ps ih =>
      intro t t' a hM hput
      rcases hstep : put cap hash t p.1 p.2 with _ | t₁
      · rw [putList, hstep] at hput
        simp at hput
      · rw [putList, hstep] at hput
        obtain ⟨a', hM', hpres⟩ := ih t₁ t' (upd a p.1 p.2)
          (put_models hc hM hstep) hput
        refine ⟨a', hM', ?_⟩
        intro x hx
        rw [hpres x (fun q hq => hx q (List.mem_cons_of_mem _ hq))]
        have hxp : x ≠ p.1 := Ne.symm (hx p (List.mem_cons_self _ _))
        simp only [upd, if_neg hxp]

/-- Building a table by inserting distinct fresh keys that fit within
capacity: every insert terminates, the abstract map is the fold of the
updates, and occupancy grows by exactly the number of inserts. -/
theorem putList_build {K : Type} [Inhabited K] [DecidableEq K]
    {cap : Nat} {hash : K → Nat} (hc : Pow2 cap) :
    ∀ (l : List (K × Int)) (t : List (Entry K)) (a : K → Option Int),
      Models cap hash t a → countUsed t + l.length ≤ cap →
      (l.map Prod.fst).Nodup → (∀ p ∈ l, a p.1 = none) →
      ∃ t', putList cap hash t l = some t' ∧
        Models cap hash t' (l.foldl (fun b q => upd b q.1 q.2) a) ∧
        countUsed t' = countUsed t + l.length := by
  intro l
  induction l with
  | nil =>
      intro t a hM _ _ _
      exact ⟨t, rfl, hM, by simp⟩
  | cons p ps ih =>
      intro t a hM hcnt hnodup hfresh
      have hlen : (p :: ps).length = ps.length + 1 := by simp
      have hlt : countUsed t < cap := by omega
      have hne : countUsed t ≠ cap := by omega
      have hempty := exists_empty_slot hM.len hne
      obtain ⟨t₁, ht₁⟩ := put_succeeds p.2 hc hM (Or.inl hempty)
      have hM₁ := put_models hc hM ht₁
      have hcnt₁ := put_count hc hM (hfresh p (List.mem_cons_self _ _)) ht₁
      have hnodup' : (ps.map Prod.fst).Nodup := by
        rw [List.map_cons] at hnodup
        exact hnodup.of_cons
      have hfresh' : ∀ q ∈ ps, upd a p.1 p.2 q.1 = none := by
        intro q hq
        have hq1 : q.1 ≠ p.1 := by
          rw [List.map_cons] at hnodup
          intro hqp
          have hmem : p.1 ∈ ps.map Prod.fst := by
            rw [← hqp]
            exact List.mem_map_of_mem _ hq
          exact (List.nodup_cons.mp hnodup).1 hmem
        simp only [upd, if_neg hq1]
        exact hfresh q (List.mem_cons_of_mem _ hq)
      obtain ⟨t', hput', hM', hcnt'⟩ := ih t₁ (upd a p.1 p.2) hM₁
        (by omega) hnodup' hfresh'
      refine ⟨t', ?_, hM', ?_⟩
      · rw [putList, ht₁]
        exact hput'
      · omega

/-- Every reachable table denotes some abstract map. -/
theorem models_reachable {K : Type} [Inhabited K] [DecidableEq K]
    {cap : Nat} {hash : K → Nat} {t : List (Entry K)} (hc : Pow2 cap)
    (h : Reachable cap hash t) : ∃ a, Models cap hash t a := by
  induction h with
  | base => exact ⟨fun _ => none, models_empty cap hash⟩
  | step _ hput ih =>
      obtain ⟨a, hM⟩ := ih
      exact ⟨_, put_models hc hM hput⟩

/-- Two tables denoting the same abstract map with the same occupancy are
observationally equal through `get`. -/
theorem get_eq_of_models {K : Type} [Inhabited K] [DecidableEq K]
    {cap : Nat} {hash : K → Nat} {t₁ t₂ : List (Entry K)} {a : K → Option Int}
    (hc : Pow2 cap) (hM₁ : Models cap hash t₁ a) (hM₂ : Models cap hash t₂ a)
    (hcnt : countUsed t₁ = countUsed t₂) (k : K) :
    get cap hash t₁ k = get cap hash t₂ k := by
  rcases ha : a k with _ | v
  · by_cases hfull : countUsed t₁ = cap
    · have hfull₁ : ∀ i, i < cap → (slot t₁ i).used = true :=
        (countUsed_full hM₁.len).mp hfull
      have hfull₂ : ∀ i, i < cap → (slot t₂ i).used = true :=
        (countUsed_full hM₂.len).mp (by omega)
      rw [get_full_none hc hM₁ ha hfull₁, get_full_none hc hM₂ ha hfull₂]
    · have he₁ := exists_empty_slot hM₁.len hfull
      have he₂ := exists_empty_slot hM₂.len (by omega)
      rw [get_absent hc hM₁ ha he₁, get_absent hc hM₂ ha he₂]
  · rw [get_found hc hM₁ ha, get_found hc hM₂ ha]


/-! ### The concrete nested store of 17_nested_update -/

theorem step17_store (v : Int) :
    step17 (store17At v) = some (store17At (v + 1)) := rfl

theorem read17_store (v : Int) : read17 (store17At v) = some v := rfl

theorem build17_eq : build17 = some (store17At 0) := rfl

theorem iter17_store (n : Nat) :
    ∀ v : Int, iter17 n (store17At v) = some (store17At (v + n)) := by
  induction n with
  | zero =>
      intro v
      simp [iter17]
  | succ n ih =>
      intro v
      have h1 : iter17 (n + 1) (store17At v) = iter17 n (store17At (v + 1)) := by
        rw [iter17, step17_store]
      rw [h1, ih (v + 1)]
      congr 1
      congr 1
      push_cast
      ring

/-! ### Probe footprint -/

theorem probeSeq_lt {cap : Nat} (hc : Pow2 cap) :
    ∀ f i, i < cap → ∀ x ∈ probeSeq cap i f, x < cap := by
  intro f
  induction f with
  | zero =>
      intro i _ x hx
      simp [probeSeq] at hx
  | succ f ih =>
      intro i hi x hx
      rw [probeSeq] at hx
      rcases List.mem_cons.mp hx with rfl | hx'
      · exact hi
      · exact ih _ (maskIdx_lt hc _) x hx'


/-! ### Frame lemmas for the nested variant's put_val / put_ptr -/

theorem nslot_set_eq {t : List NEntry} {i : Nat} (e : NEntry)
    (h : i < t.length) : nslot (t.set i e) i = e := by
  simp [nslot, List.getD_eq_getElem?_getD, List.getElem?_set_eq_of_lt e h]

theorem nslot_set_ne {t : List NEntry} {i j : Nat} (e : NEntry)
    (h : i ≠ j) : nslot (t.set i e) j = nslot t j := by
  simp [nslot, List.getD_eq_getElem?_getD, List.getElem?_set_ne h]

/-- Forward characterization of a successful nested-variant probe: the
returned index is the first offset along the probe sequence whose slot fails
the continue condition. -/
theorem probePutN_writes {cap : Nat} {t : List NEntry} {k : Str}
    (hc : Pow2 cap) :
    ∀ f i r, i < cap → probePutN cap t k i f = some r →
      ∃ d, d < f ∧ r = (i + d) % cap ∧ ¬NCont t k r ∧
        ∀ j, j < d → NCont t k ((i + j) % cap) := by
  intro f
  induction f with
  | zero => intro i r _ h; exact absurd h (by simp [probePutN])
  | succ f ih =>
      intro i r hi h
      by_cases hcont : NCont t k i
      · rw [probePutN, if_pos hcont] at h
        obtain ⟨d, hd, hr, hstop, hpath⟩ := ih _ r (maskIdx_lt hc _) h
        rw [maskIdx_eq_mod hc] at hr hpath
        refine ⟨d + 1, by omega, by rw [hr, step_shift], hstop, ?_⟩
        intro j hj
        match j with
        | 0 => simpa [Nat.mod_eq_of_lt hi] using hcont
        | j + 1 =>
            have := hpath j (by omega)
            rwa [step_shift] at this
      · rw [probePutN, if_neg hcont] at h
        obtain rfl : i = r := by simpa using h
        exact ⟨0, by omega, by simp [Nat.mod_eq_of_lt hi], hcont, by omega⟩

/-- Frame of `put_val` (17_nested_update lines 25-33): exactly one slot is
written — the probe stop, previously Empty or already holding the key — with
the slot's `ptr` field left as it was; every other slot (all five fields) is
unchanged, and no occupied flag is cleared. -/
theorem put_val_frame {cap : Nat} {t t' : List NEntry} {k : Str} {v : Int}
    (hc : Pow2 cap) (hlen : t.length = cap)
    (hput : put_val cap t k v = some t') :
    ∃ i, i < cap ∧ ((nslot t i).used = false ∨ (nslot t i).key = k) ∧
      t' = t.set i ⟨k, v, true, false, (nslot t i).ptr⟩ ∧
      (∀ j, j ≠ i → nslot t' j = nslot t j) ∧
      (∀ j, (nslot t j).used = true → (nslot t' j).used = true) := by
  have hs : maskIdx cap (hashStr k) < cap := maskIdx_lt hc _
  rcases hprobe : probePutN cap t k (maskIdx cap (hashStr k)) cap with _ | r
  · rw [put_val, hprobe] at hput
    simp at hput
  · rw [put_val, hprobe] at hput
    injection hput with hput
    subst hput
    obtain ⟨d, hd, hr, hstop, _⟩ := probePutN_writes hc cap _ r hs hprobe
    have hrcap : r < cap := by rw [hr]; exact Nat.mod_lt _ (pow2_pos hc)
    have hrlen : r < t.length := by rw [hlen]; exact hrcap
    refine ⟨r, hrcap, ?_, rfl, ?_, ?_⟩
    · by_cases hu : (nslot t r).used = true
      · right
        by_contra hk
        exact hstop ⟨hu, hk⟩
      · left
        cases h : (nslot t r).used
        · rfl
        · exact absurd h hu
    · intro j hj
      exact nslot_set_ne _ (Ne.symm hj)
    · intro j hu
      by_cases hj : j = r
      · subst hj
        rw [nslot_set_eq _ hrlen]
      · rw [nslot_set_ne _ (Ne.symm hj)]
        exact hu

/-- Frame of `put_ptr` (17_nested_update lines 35-43): exactly one slot is
written — the probe stop, previously Empty or already holding the key — with
the slot's `val` field left as it was; every other slot is unchanged, and no
occupied flag is cleared. -/
theorem put_ptr_frame {cap : Nat} {t t' : List NEntry} {k : Str} {p : Nat}
    (hc : Pow2 cap) (hlen : t.length = cap)
    (hput : put_ptr cap t k p = some t') :
    ∃ i, i < cap ∧ ((nslot t i).used = false ∨ (nslot t i).key = k) ∧
      t' = t.set i ⟨k, (nslot t i).val, true, true, p⟩ ∧
      (∀ j, j ≠ i → nslot t' j = nslot t j) ∧
      (∀ j, (nslot t j).used = true → (nslot t' j).used = true) := by
  have hs : maskIdx cap (hashStr k) < cap := maskIdx_lt hc _
  rcases hprobe : probePutN cap t k (maskIdx cap (hashStr k)) cap with _ | r
  · rw [put_ptr, hprobe] at hput
    simp at hput
  · rw [put_ptr, hprobe] at hput
    injection hput with hput
    subst hput
    obtain ⟨d, hd, hr, hstop, _⟩ := probePutN_writes hc cap _ r hs hprobe
    have hrcap : r < cap := by rw [hr]; exact Nat.mod_lt _ (pow2_pos hc)
    have hrlen : r < t.length := by rw [hlen]; exact hrcap
    refine ⟨r, hrcap, ?_, rfl, ?_, ?_⟩
    · by_cases hu : (nslot t r).used = true
      · right
        by_contra hk
        exact hstop ⟨hu, hk⟩
      · left
        cases h : (nslot t r).used
        · rfl
        · exact absurd h hu
    · intro j hj
      exact nslot_set_ne _ (Ne.symm hj)
    · intro j hu
      by_cases hj : j = r
      · subst hj
        rw [nslot_set_eq _ hrlen]
      · rw [nslot_set_ne _ (Ne.symm hj)]
        exact hu

/-! ### Claim theorems -/

/-- C1: Round-trip.  For every table built by puts that never exhaust
capacity, after `put(k, v)` and any further terminating puts to keys other
than `k`, `get(k)` returns exactly `v`.  Stated generically over the key
type and hash function, covering both the integer-keyed variant
(07_map_ops, `hashInt`) and the string-keyed variants (15_keyword_lookup,
12_gc_stress, `hashStr`). -/
theorem c1_put_get_roundtrip {K : Type} [Inhabited K] [DecidableEq K]
    {cap : Nat} {hash : K → Nat} {t t₁ t₂ : List (Entry K)} {k : K} {v : Int}
    {ps : List (K × Int)} (hc : Pow2 cap) (hre : Reachable cap hash t)
    (hput : put cap hash t k v = some t₁)
    (hrest : putList cap hash t₁ ps = some t₂)
    (hother : ∀ p ∈ ps, p.1 ≠ k) :
    get cap hash t₂ k = some v := by
  obtain ⟨a, hM⟩ := models_reachable hc hre
  have hM₁ := put_models hc hM hput
  obtain ⟨a', hM₂, hpres⟩ := putList_preserve hc ps t₁ t₂ _ hM₁ hrest
  have ha' : a' k = some v := by
    rw [hpres k hother]
    simp [upd]
  exact get_found hc hM₂ ha'

/-- C1 witness: a concrete round-trip in the integer-keyed and in the
string-keyed instantiation. -/
theorem c1_witness :
    get 4 hashInt (((emptyTable Int 4).set 1 ⟨1, 10, true⟩).set 2
      ⟨2, 20, true⟩) 1 = some 10 ∧
    get 4 hashStr (((emptyTable Str 4).set 2 ⟨kA, 7, true⟩).set 3
      ⟨kB, 8, true⟩) kA = some 7 := by
  constructor
  · exact @c1_put_get_roundtrip Int _ _ 4 hashInt (emptyTable Int 4)
      ((emptyTable Int 4).set 1 ⟨1, 10, true⟩)
      (((emptyTable Int 4).set 1 ⟨1, 10, true⟩).set 2 ⟨2, 20, true⟩) 1 10
      [(2, 20)] ⟨2, rfl⟩ Reachable.base (by decide) (by decide) (by decide)
  · exact @c1_put_get_roundtrip Str _ _ 4 hashStr (emptyTable Str 4)
      ((emptyTable Str 4).set 2 ⟨kA, 7, true⟩)
      (((emptyTable Str 4).set 2 ⟨kA, 7, true⟩).set 3 ⟨kB, 8, true⟩) kA 7
      [(kB, 8)] ⟨2, rfl⟩ Reachable.base (by decide) (by decide) (by decide)

/-- C5: No-holes probe invariant.  In every table reachable from the empty
table by terminating puts, every occupied key's slot is reached from its
hash bucket by linear probing through exclusively occupied slots — no Empty
slot intervenes before the key's actual index. -/
theorem c5_no_holes_invariant {K : Type} [Inhabited K] [DecidableEq K]
    {cap : Nat} {hash : K → Nat} {t : List (Entry K)} (hc : Pow2 cap)
    (hre : Reachable cap hash t) :
    ∀ i, i < cap → (slot t i).used = true →
      ∃ d, d < cap ∧ i = (maskIdx cap (hash (slot t i).key) + d) % cap ∧
        ∀ j, j < d →
          (slot t ((maskIdx cap (hash (slot t i).key) + j) % cap)).used =
            true := by
  obtain ⟨a, hM⟩ := models_reachable hc hre
  exact hM.noHoles

/-- C5 witness: the invariant instantiated at a concrete reachable table and
occupied slot. -/
theorem c5_witness :
    ∃ d, d < 4 ∧ 1 = (maskIdx 4 (hashInt
        (slot ((emptyTable Int 4).set 1 ⟨1, 10, true⟩) 1).key) + d) % 4 ∧
      ∀ j, j < d → (slot ((emptyTable Int 4).set 1 ⟨1, 10, true⟩)
        ((maskIdx 4 (hashInt
          (slot ((emptyTable Int 4).set 1 ⟨1, 10, true⟩) 1).key) + j) % 4)).used =
        true :=
  @c5_no_holes_invariant Int _ _ 4 hashInt
    ((emptyTable Int 4).set 1 ⟨1, 10, true⟩) ⟨2, rfl⟩
    (Reachable.step Reachable.base
      (by decide : put 4 hashInt (emptyTable Int 4) 1 10 =
        some ((emptyTable Int 4).set 1 ⟨1, 10, true⟩)))
    1 (by decide) (by decide)

/-- C10: put frame.  Every terminating put writes exactly one slot — the
slot where its probe stops, previously Empty or already holding the key —
leaving every other slot untouched, and never clears an occupied flag
(`get` and `find` mutate nothing, being pure in this embedding).  Stated for
the flat `put` of 07_map_ops/15_keyword_lookup/12_gc_stress (first conjunct,
generic over key type and hash) and for 17_nested_update's `put_val` and
`put_ptr` (second and third conjuncts), whose single written slot moreover
keeps its unwritten `ptr` respectively `val` field, all other slots keeping
all five fields. -/
theorem c10_put_frame {K : Type} [Inhabited K] [DecidableEq K]
    {cap : Nat} {hash : K → Nat} {t t' : List (Entry K)} {k : K} {v : Int}
    (hc : Pow2 cap) (hlen : t.length = cap)
    (hput : put cap hash t k v = some t') :
    (∃ i, i < cap ∧ ((slot t i).used = false ∨ (slot t i).key = k) ∧
      t' = t.set i ⟨k, v, true⟩ ∧
      (∀ j, j ≠ i → slot t' j = slot t j) ∧
      (∀ j, (slot t j).used = true → (slot t' j).used = true)) ∧
    (∀ (capn : Nat) (tn tn' : List NEntry) (kn : Str) (vn : Int),
      Pow2 capn → tn.length = capn → put_val capn tn kn vn = some tn' →
      ∃ i, i < capn ∧ ((nslot tn i).used = false ∨ (nslot tn i).key = kn) ∧
        tn' = tn.set i ⟨kn, vn, true, false, (nslot tn i).ptr⟩ ∧
        (∀ j, j ≠ i → nslot tn' j = nslot tn j) ∧
        (∀ j, (nslot tn j).used = true → (nslot tn' j).used = true)) ∧
    (∀ (capn : Nat) (tn tn' : List NEntry) (kn : Str) (pn : Nat),
      Pow2 capn → tn.length = capn → put_ptr capn tn kn pn = some tn' →
      ∃ i, i < capn ∧ ((nslot tn i).used = false ∨ (nslot tn i).key = kn) ∧
        tn' = tn.set i ⟨kn, (nslot tn i).val, true, true, pn⟩ ∧
        (∀ j, j ≠ i → nslot tn' j = nslot tn j) ∧
        (∀ j, (nslot tn j).used = true → (nslot tn' j).used = true)) := by
  refine ⟨?_, ?_, ?_⟩
  · have hs : maskIdx cap (hash k) < cap := maskIdx_lt hc _
    rcases hprobe : probePut cap t k (maskIdx cap (hash k)) cap with _ | r
    · rw [put, hprobe] at hput
      simp at hput
    · rw [put, hprobe] at hput
      injection hput with hput
      subst hput
      obtain ⟨d, hd, hr, hstop, _⟩ := probePut_writes hc cap _ r hs hprobe
      have hrcap : r < cap := by rw [hr]; exact Nat.mod_lt _ (pow2_pos hc)
      have hrlen : r < t.length := by rw [hlen]; exact hrcap
      refine ⟨r, hrcap, ?_, rfl, ?_, ?_⟩
      · by_cases hu : (slot t r).used = true
        · right
          by_contra hk
          exact hstop ⟨hu, hk⟩
        · left
          cases h : (slot t r).used
          · rfl
          · exact absurd h hu
      · intro j hj
        exact slot_set_ne _ (Ne.symm hj)
      · intro j hu
        by_cases hj : j = r
        · subst hj
          rw [slot_set_eq _ hrlen]
        · rw [slot_set_ne _ (Ne.symm hj)]
          exact hu
  · intro capn tn tn' kn vn hcn hlenn hputn
    exact put_val_frame hcn hlenn hputn
  · intro capn tn tn' kn pn hcn hlenn hputn
    exact put_ptr_frame hcn hlenn hputn

/-- C10 witness: the frame property at a concrete successful flat `put`, a
concrete `put_val` and a concrete `put_ptr`. -/
theorem c10_witness :
    (∃ i, i < 4 ∧ ((slot (emptyTable Int 4) i).used = false ∨
        (slot (emptyTable Int 4) i).key = 3) ∧
      (emptyTable Int 4).set 3 ⟨3, 7, true⟩ =
        (emptyTable Int 4).set i ⟨3, 7, true⟩ ∧
      (∀ j, j ≠ i → slot ((emptyTable Int 4).set 3 ⟨3, 7, true⟩) j =
        slot (emptyTable Int 4) j) ∧
      (∀ j, (slot (emptyTable Int 4) j).used = true →
        (slot ((emptyTable Int 4).set 3 ⟨3, 7, true⟩) j).used = true)) ∧
    (∃ i, i < 4 ∧ ((nslot (emptyNTable 4) i).used = false ∨
        (nslot (emptyNTable 4) i).key = kC) ∧
      (emptyNTable 4).set 0 ⟨kC, 0, true, false, 0⟩ =
        (emptyNTable 4).set i ⟨kC, 0, true, false,
          (nslot (emptyNTable 4) i).ptr⟩ ∧
      (∀ j, j ≠ i →
        nslot ((emptyNTable 4).set 0 ⟨kC, 0, true, false, 0⟩) j =
          nslot (emptyNTable 4) j) ∧
      (∀ j, (nslot (emptyNTable 4) j).used = true →
        (nslot ((emptyNTable 4).set 0 ⟨kC, 0, true, false, 0⟩) j).used =
          true)) ∧
    (∃ i, i < 4 ∧ ((nslot (emptyNTable 4) i).used = false ∨
        (nslot (emptyNTable 4) i).key = kB) ∧
      (emptyNTable 4).set 3 ⟨kB, 0, true, true, 2⟩ =
        (emptyNTable 4).set i ⟨kB, (nslot (emptyNTable 4) i).val, true,
          true, 2⟩ ∧
      (∀ j, j ≠ i →
        nslot ((emptyNTable 4).set 3 ⟨kB, 0, true, true, 2⟩) j =
          nslot (emptyNTable 4) j) ∧
      (∀ j, (nslot (emptyNTable 4) j).used = true →
        (nslot ((emptyNTable 4).set 3 ⟨kB, 0, true, true, 2⟩) j).used =
          true)) := by
  have h := @c10_put_frame Int _ _ 4 hashInt (emptyTable Int 4)
    ((emptyTable Int 4).set 3 ⟨3, 7, true⟩) 3 7 ⟨2, rfl⟩ (by decide)
    (by decide)
  exact ⟨h.1,
    h.2.1 4 (emptyNTable 4) ((emptyNTable 4).set 0 ⟨kC, 0, true, false, 0⟩)
      kC 0 ⟨2, rfl⟩ (by decide) (by decide),
    h.2.2 4 (emptyNTable 4) ((emptyNTable 4).set 3 ⟨kB, 0, true, true, 2⟩)
      kB 2 ⟨2, rfl⟩ (by decide) (by decide)⟩


/-- C2 counterexample.  On the full capacity-4 table `tF`, whose four slots
all hold keys different from 4, the source `put(4, 99)` produces no result
at all: its probe loop, modelled with any fuel, never exits — the C `while`
cycles forever.  No `TableFull` (nor any other) error is signalled; the
source has no such check. -/
theorem c2_counterexample :
    put 4 hashInt tF 4 99 = none ∧ ¬ PutTerminates 4 hashInt tF 4 := by
  constructor
  · decide
  · rintro ⟨f, r, hfr⟩
    rw [probePut_spin (⟨2, rfl⟩ : Pow2 4) (by decide) f _ (by decide)] at hfr
    exact Option.noConfusion hfr

/-- C2 amended: on a table whose `capacity` slots are all Occupied by keys
distinct from `k`, the source `put(k, v)` does not signal `TableFull`: its
probe loop never terminates for any probe budget, so no write and no error
result are produced (in particular no silent overwrite occurs); a
spec-conforming reimplementation must bound the probe at `capacity` slots —
the fuel-`capacity` model returning `none` is exactly that detection
point — and report `TableFull` instead of looping. -/
theorem c2_tablefull_amended {K : Type} [Inhabited K] [DecidableEq K]
    {cap : Nat} {hash : K → Nat} {t : List (Entry K)} {k : K} (v : Int)
    (hc : Pow2 cap)
    (hfull : ∀ i, i < cap → (slot t i).used = true ∧ (slot t i).key ≠ k) :
    (∀ f, probePut cap t k (maskIdx cap (hash k)) f = none) ∧
    put cap hash t k v = none := by
  have hall : ∀ idx, idx < cap → ProbeCont t k idx := fun idx h =>
    ⟨(hfull idx h).1, (hfull idx h).2⟩
  constructor
  · intro f
    exact probePut_spin hc hall f _ (maskIdx_lt hc _)
  · rw [put, probePut_spin hc hall cap _ (maskIdx_lt hc _)]

/-- C2 amended witness: the divergence at a concrete full table and fresh
key. -/
theorem c2_amended_witness :
    (∀ f, probePut 4 tF 9 (maskIdx 4 (hashInt 9)) f = none) ∧
    put 4 hashInt tF 9 88 = none :=
  @c2_tablefull_amended Int _ _ 4 hashInt tF 9 88 ⟨2, rfl⟩ (by decide)

/-- C3 counterexample.  Not every operation terminates on every table state:
on the full capacity-4 table `tF`, `get(8)` — key 8 hashes to bucket 0 and is
absent — never returns: every slot is Occupied with a non-matching key, so
the probe loop cycles through the four slots forever, whatever fuel the
model grants it. -/
theorem c3_counterexample : ¬ GetTerminates 4 hashInt tF 8 := by
  rintro ⟨f, v, hfv⟩
  rw [getAux_spin (⟨2, rfl⟩ : Pow2 4) (by decide) f _ (by decide)] at hfv
  exact Option.noConfusion hfv

/-- C3 amended: `put`, `get` and the nested variant's `find` all terminate
within `capacity` probe steps — the probe sequence examines at most
`capacity` slots — on every table state that has an Empty slot or a slot
holding the searched key; only a table whose every slot is Occupied by a
non-matching key makes the source loops run forever. -/
theorem c3_termination_amended {K : Type} [Inhabited K] [DecidableEq K]
    {cap : Nat} {hash : K → Nat} {t : List (Entry K)} {k : K} (hc : Pow2 cap)
    (h : (∃ i, i < cap ∧ (slot t i).used = false) ∨
         (∃ i, i < cap ∧ (slot t i).used = true ∧ (slot t i).key = k)) :
    (∃ r, probePut cap t k (maskIdx cap (hash k)) cap = some r) ∧
    (∃ v, getAux cap t k (maskIdx cap (hash k)) cap = some v) ∧
    ∀ (tn : List NEntry) (kn : Str),
      ((∃ i, i < cap ∧ (nslot tn i).used = false) ∨
       (∃ i, i < cap ∧ (nslot tn i).used = true ∧ (nslot tn i).key = kn)) →
      ∃ w, findAux cap tn kn (maskIdx cap (hashStr kn)) cap = some w := by
  have hs : maskIdx cap (hash k) < cap := maskIdx_lt hc _
  have hstop : ∃ i, i < cap ∧ ¬ProbeCont t k i := by
    rcases h with ⟨i, hi, hu⟩ | ⟨i, hi, _, hkey⟩
    · exact ⟨i, hi, fun hcon => by simp [ProbeCont, hu] at hcon⟩
    · exact ⟨i, hi, fun hcon => hcon.2 hkey⟩
  obtain ⟨d, hd, hstop'⟩ := stop_offset hs hstop
  refine ⟨probePut_stops hc cap _ hs ⟨d, hd, hstop'⟩,
    getAux_stops hc cap _ hs ⟨d, hd, hstop'⟩, ?_⟩
  intro tn kn hn
  have hsn : maskIdx cap (hashStr kn) < cap := maskIdx_lt hc _
  have hstopn : ∃ i, i < cap ∧ ¬NCont tn kn i := by
    rcases hn with ⟨i, hi, hu⟩ | ⟨i, hi, _, hkey⟩
    · exact ⟨i, hi, fun hcon => by simp [NCont, hu] at hcon⟩
    · exact ⟨i, hi, fun hcon => hcon.2 hkey⟩
  obtain ⟨i, hi, hst⟩ := hstopn
  obtain ⟨dn, hdn, hieq⟩ := probe_covers hsn hi
  exact findAux_stops hc cap _ hsn ⟨dn, hdn, by rwa [← hieq]⟩

/-- C3 amended witness: bounded termination at a concrete non-full table. -/
theorem c3_amended_witness :
    (∃ r, probePut 4 ((emptyTable Int 4).set 1 ⟨1, 10, true⟩) 5
        (maskIdx 4 (hashInt 5)) 4 = some r) ∧
    (∃ v, getAux 4 ((emptyTable Int 4).set 1 ⟨1, 10, true⟩) 5
        (maskIdx 4 (hashInt 5)) 4 = some v) ∧
    ∀ (tn : List NEntry) (kn : Str),
      ((∃ i, i < 4 ∧ (nslot tn i).used = false) ∨
       (∃ i, i < 4 ∧ (nslot tn i).used = true ∧ (nslot tn i).key = kn)) →
      ∃ w, findAux 4 tn kn (maskIdx 4 (hashStr kn)) 4 = some w :=
  @c3_termination_amended Int _ _ 4 hashInt
    ((emptyTable Int 4).set 1 ⟨1, 10, true⟩) 5 ⟨2, rfl⟩
    (Or.inl ⟨0, by decide⟩)

/-- C4 counterexample.  The source `get` does not return a result
distinguishable from every storable value on absence: storing value 0 under
key 1 makes `get(1)` (present, value 0) and `get(2)` (never inserted) return
the identical observable `0`; and on the full table `tF` a `get` of the
never-inserted key 12 does not return at all — its loop cycles forever —
rather than returning Absent. -/
theorem c4_counterexample :
    put 4 hashInt (emptyTable Int 4) 1 0 =
      some ((emptyTable Int 4).set 1 ⟨1, 0, true⟩) ∧
    get 4 hashInt ((emptyTable Int 4).set 1 ⟨1, 0, true⟩) 1 = some 0 ∧
    get 4 hashInt ((emptyTable Int 4).set 1 ⟨1, 0, true⟩) 2 = some 0 ∧
    ¬ GetTerminates 4 hashInt tF 12 := by
  refine ⟨by decide, by decide, by decide, ?_⟩
  rintro ⟨f, v, hfv⟩
  rw [getAux_spin (⟨2, rfl⟩ : Pow2 4) (by decide) f _ (by decide)] at hfv
  exact Option.noConfusion hfv

/-- C4 amended: for every table built by terminating puts that leave at
least one Empty slot, `get(k)` on a key never inserted returns the absent
sentinel `0` — the code's representation of Absent, which coincides with the
storable value 0 rather than being distinguishable from every storable
value — immediately upon reaching the first Empty slot of its probe path. -/
theorem c4_absent_amended {K : Type} [Inhabited K] [DecidableEq K]
    {cap : Nat} {hash : K → Nat} {l : List (K × Int)} {t : List (Entry K)}
    {k : K} (hc : Pow2 cap) (hbuild : buildTable cap hash l = some t)
    (hnever : ∀ p ∈ l, p.1 ≠ k)
    (hempty : ∃ i, i < cap ∧ (slot t i).used = false) :
    get cap hash t k = some 0 := by
  obtain ⟨a', hM, hpres⟩ := putList_preserve hc l (emptyTable K cap) t _
    (models_empty cap hash) hbuild
  exact get_absent hc hM (hpres k hnever) hempty

/-- C4 amended witness: absence at a concrete non-full table. -/
theorem c4_amended_witness :
    get 4 hashInt ((emptyTable Int 4).set 1 ⟨1, 10, true⟩) 3 = some 0 :=
  @c4_absent_amended Int _ _ 4 hashInt [(1, 10)]
    ((emptyTable Int 4).set 1 ⟨1, 10, true⟩) 3 ⟨2, rfl⟩ (by decide)
    (by decide) ⟨0, by decide⟩


/-- One-step unfolding of `resolvePath` on a path with at least two
segments. -/
theorem resolvePath_cons_cons (s : Store17) (cur : Nat) (k q : Str)
    (qs : List Str) :
    resolvePath s cur (k :: q :: qs) =
      match find 4 (tbl s cur) k with
      | some (some i) =>
          if (nslot (tbl s cur) i).is_ptr = true then
            resolvePath s (nslot (tbl s cur) i).ptr (q :: qs)
          else .error .PathNotFound
      | _ => .error .PathNotFound := rfl

/-- C6: PathNotFound.  For every store, root table and key path, if after
successfully descending a prefix of reference-typed segments the next,
non-terminal segment resolves to Absent (NULL from `find`) or to a
non-reference (`is_ptr = false`) entry, the nested path resolution fails
with the distinguishable `PathNotFound` error surfaced to the caller —
rather than proceeding or dereferencing the failed lookup. -/
theorem c6_path_not_found :
    ∀ (pre : List Str) (s : Store17) (root cur : Nat) (k k' : Str)
      (rest : List Str),
      walkRefs s root pre = some cur →
      (find 4 (tbl s cur) k = some none ∨
        ∃ i, find 4 (tbl s cur) k = some (some i) ∧
          (nslot (tbl s cur) i).is_ptr = false) →
      resolvePath s root (pre ++ k :: k' :: rest) =
        .error .PathNotFound := by
  intro pre
  induction pre with
  | nil =>
      intro s root cur k k' rest hwalk hfail
      obtain rfl : root = cur := by simpa [walkRefs] using hwalk
      rcases hfail with hf | ⟨i, hf, hptr⟩
      · simp [resolvePath, hf]
      · simp [resolvePath, hf, hptr]
  | cons p pre ih =>
      intro s root cur k k' rest hwalk hfail
      rcases hfind : find 4 (tbl s root) p with _ | oi
      · simp only [walkRefs, hfind] at hwalk
        exact Option.noConfusion hwalk
      · rcases oi with _ | i
        · simp only [walkRefs, hfind] at hwalk
          exact Option.noConfusion hwalk
        · simp only [walkRefs, hfind] at hwalk
          by_cases hptr : (nslot (tbl s root) i).is_ptr = true
          · rw [if_pos hptr] at hwalk
            have hgoal := ih s (nslot (tbl s root) i).ptr cur k k' rest
              hwalk hfail
            rcases hq : pre ++ k :: k' :: rest with _ | ⟨q, qs⟩
            · exact absurd hq (by simp)
            · show resolvePath s root ((p :: pre) ++ k :: k' :: rest) = _
              rw [List.cons_append, hq, resolvePath_cons_cons]
              simp only [hfind]
              rw [if_pos hptr, ← hq]
              exact hgoal
          · rw [if_neg hptr] at hwalk
            exact absurd hwalk (by simp)

/-- C6 witness: on the benchmark's store, the path `a, "x", c` fails at the
absent middle segment with `PathNotFound`. -/
theorem c6_witness :
    resolvePath (store17At 0) 0 ([kA] ++ [120] :: kC :: []) =
      .error .PathNotFound :=
  c6_path_not_found [kA] (store17At 0) 0 1 [120] kC [] (by decide)
    (Or.inl (by decide))

/-- C7: Collision independence.  Inserting any list of distinct-keyed pairs
that fits within capacity, in any permutation order, builds tables that are
observationally identical through `get` at every key. -/
theorem c7_collision_independence {K : Type} [Inhabited K] [DecidableEq K]
    {cap : Nat} {hash : K → Nat} {l₁ l₂ : List (K × Int)} (hc : Pow2 cap)
    (hperm : l₁.Perm l₂) (hnodup : (l₁.map Prod.fst).Nodup)
    (hfits : l₁.length ≤ cap) :
    ∃ t₁ t₂, buildTable cap hash l₁ = some t₁ ∧
      buildTable cap hash l₂ = some t₂ ∧
      ∀ k, get cap hash t₁ k = get cap hash t₂ k := by
  have hnodup₂ : (l₂.map Prod.fst).Nodup := (hperm.map Prod.fst).nodup hnodup
  have hfits₂ : l₂.length ≤ cap := by
    rw [← hperm.length_eq]
    exact hfits
  obtain ⟨t₁, hb₁, hM₁, hcnt₁⟩ := putList_build hc l₁ (emptyTable K cap) _
    (models_empty cap hash)
    (by rw [countUsed_emptyTable]; omega) hnodup (fun _ _ => rfl)
  obtain ⟨t₂, hb₂, hM₂, hcnt₂⟩ := putList_build hc l₂ (emptyTable K cap) _
    (models_empty cap hash)
    (by rw [countUsed_emptyTable]; omega) hnodup₂ (fun _ _ => rfl)
  have hinj := List.inj_on_of_nodup_map hnodup
  have hcomm : ∀ x ∈ l₁, ∀ y ∈ l₁, ∀ z : K → Option Int,
      upd (upd z x.1 x.2) y.1 y.2 = upd (upd z y.1 y.2) x.1 x.2 := by
    intro x hx y hy z
    by_cases hxy : x.1 = y.1
    · have hxe : x = y := hinj hx hy hxy
      subst hxe
      rfl
    · funext w
      simp only [upd]
      by_cases h1 : w = y.1 <;> by_cases h2 : w = x.1
      · exact absurd (h2.symm.trans h1) hxy
      · simp [h1, h2, Ne.symm hxy]
      · simp [h1, h2, hxy]
      · simp [h1, h2]
  have hfold : l₁.foldl (fun b q => upd b q.1 q.2) (fun _ => none) =
      l₂.foldl (fun b q => upd b q.1 q.2) (fun _ => none) :=
    hperm.foldl_eq' hcomm _
  rw [hfold] at hM₁
  refine ⟨t₁, t₂, hb₁, hb₂, ?_⟩
  intro k
  refine get_eq_of_models hc hM₁ hM₂ ?_ k
  rw [hcnt₁, hcnt₂, countUsed_emptyTable, hperm.length_eq]

/-- C7 witness: two permutations of a concrete pair list give tables with
equal `get` everywhere. -/
theorem c7_witness :
    ∃ t₁ t₂, buildTable 4 hashInt [(1, 10), (2, 20)] = some t₁ ∧
      buildTable 4 hashInt [(2, 20), (1, 10)] = some t₂ ∧
      ∀ k, get 4 hashInt t₁ k = get 4 hashInt t₂ k :=
  @c7_collision_independence Int _ _ 4 hashInt [(1, 10), (2, 20)]
    [(2, 20), (1, 10)] ⟨2, rfl⟩ (by decide) (by decide) (by decide)

/-- C8: Nested mutation.  `main`'s construction yields the three-level store
root → a → b → c with terminal value 0; resolving the path by successive
`find` calls and incrementing the terminal value in place, repeated `n`
times for any `n ≥ 0`, leaves the terminal value equal to `n` when read back
through the same path. -/
theorem c8_nested_mutation (n : Nat) :
    build17 = some (store17At 0) ∧
    iter17 n (store17At 0) = some (store17At (n : Int)) ∧
    read17 (store17At (n : Int)) = some (n : Int) := by
  refine ⟨build17_eq, ?_, read17_store _⟩
  have h := iter17_store n 0
  simpa using h

/-- C9: In-bounds indexing.  Every slot index computed by the probe loops is
produced by `maskIdx` — the initial `hash & (capacity - 1)` and each
`(idx + 1) & (capacity - 1)` step — so for power-of-two capacity the probe
start, every index of the probe footprint, and the index a successful probe
writes, all lie in `[0, capacity)`. -/
theorem c9_inbounds_indexing (m h f : Nat) :
    maskIdx (2 ^ m) h < 2 ^ m ∧
    (∀ i ∈ probeSeq (2 ^ m) (maskIdx (2 ^ m) h) f, i < 2 ^ m) ∧
    ∀ (t : List (Entry Int)) (k : Int) (r : Nat),
      probePut (2 ^ m) t k (maskIdx (2 ^ m) (hashInt k)) f = some r →
        r < 2 ^ m := by
  refine ⟨maskIdx_lt ⟨m, rfl⟩ h,
    probeSeq_lt ⟨m, rfl⟩ f _ (maskIdx_lt ⟨m, rfl⟩ h), ?_⟩
  intro t k r hpr
  obtain ⟨d, _, hr, _, _⟩ := probePut_writes ⟨m, rfl⟩ f _ r
    (maskIdx_lt ⟨m, rfl⟩ _) hpr
  rw [hr]
  exact Nat.mod_lt _ (pow2_pos ⟨m, rfl⟩)

/-- C9 witness: the bound at a concrete capacity, hash and probe step. -/
theorem c9_witness : maskIdx 4 177670 < 4 ∧ 3 < 4 :=
  ⟨(c9_inbounds_indexing 2 177670 4).1,
   (c9_inbounds_indexing 2 177670 4).2.1 3 (by decide)⟩


/-- C8 witness: five increments through the nested path leave terminal
value 5. -/
theorem c8_witness :
    build17 = some (store17At 0) ∧
    iter17 5 (store17At 0) = some (store17At (5 : Int)) ∧
    read17 (store17At (5 : Int)) = some (5 : Int) :=
  c8_nested_mutation 5

end HashBench
